import Mathlib

/-!
Verification of the chat-log preprocessor (preprocess_msn.py).

Strings are modeled as `List Char`; each Python string operation used by the
script (strip, lower, replace, startswith, split-counting) and each regular
expression appearing in the source is translated character by character.
Character classes use the ASCII ranges (plus the Latin-1 letters needed by the
French month names); Python's full Unicode tables are outside the embedding.
Python's insertion-ordered dict is modeled as an association list that appends
new keys at the end.  Loops whose argument does not shrink structurally are
written with an explicit fuel parameter initialized with the list length,
which strictly dominates the number of iterations.
-/

set_option maxRecDepth 20000

/-- Python regex class \s (ASCII part): space, tab, newline, carriage return,
vertical tab, form feed. -/
def isPySpace (c : Char) : Bool :=
  c.toNat = 32 || c.toNat = 9 || c.toNat = 10 || c.toNat = 13 || c.toNat = 11 || c.toNat = 12

/-- Python regex class \w restricted to ASCII alphanumerics, underscore and
the Latin-1 letters (which cover the accented letters of the French month
names). -/
def isWordChar (c : Char) : Bool :=
  (48 ≤ c.toNat && c.toNat ≤ 57) || (65 ≤ c.toNat && c.toNat ≤ 90) ||
  (97 ≤ c.toNat && c.toNat ≤ 122) || c = '_' ||
  (192 ≤ c.toNat && c.toNat ≤ 255 && c.toNat ≠ 215 && c.toNat ≠ 247)

/-- ASCII lower-casing of one character, as used by str.lower(). -/
def pyToLower (c : Char) : Char :=
  if 65 ≤ c.toNat ∧ c.toNat ≤ 90 then Char.ofNat (c.toNat + 32) else c

/-- str.lower() -/
def toLowerL (l : List Char) : List Char := l.map pyToLower

/-- Drop the longest run of characters satisfying p from the END of the list
(used for str.strip and str.rstrip). -/
def dropTail (p : Char → Bool) (l : List Char) : List Char :=
  l.foldr (fun c acc => if acc.isEmpty && p c then [] else c :: acc) []

/-- str.strip(): remove leading and trailing whitespace. -/
def pyStrip (l : List Char) : List Char := dropTail isPySpace (l.dropWhile isPySpace)

/-- str.replace(pat, rep): replace every (non-overlapping, left-to-right)
occurrence of pat; fuel-driven recursion, fuel = original length. -/
def replaceAllF (pat rep : List Char) (fuel : Nat) (l : List Char) : List Char :=
  match l with
  | [] => []
  | c :: cs =>
    match fuel with
    | 0 => c :: cs
    | fuel+1 =>
      if pat.isPrefixOf (c :: cs) then rep ++ replaceAllF pat rep fuel ((c :: cs).drop pat.length)
      else c :: replaceAllF pat rep fuel cs

def replaceAll (pat rep l : List Char) : List Char :=
  if pat.isEmpty then l else replaceAllF pat rep l.length l

/-- Alternative `\s*[-—].*` of the suffix-stripping regex in
clean_display_name: optional whitespace, a dash, then the rest of the line
(`.` does not cross a newline).  Returns the remainder after the match. -/
def matchDash (l : List Char) : Option (List Char) :=
  match l.dropWhile isPySpace with
  | c :: rs => if c = '-' || c = '—' then some (rs.dropWhile (fun ch => ch ≠ '\n')) else none
  | [] => none

/-- Alternative `\s*\[.*?\]`: lazy body, so the match ends at the first ']'
reachable without crossing a newline. -/
def matchBracket (l : List Char) : Option (List Char) :=
  match l.dropWhile isPySpace with
  | c :: rs =>
    if c = '[' then
      match rs.drop (rs.takeWhile (fun ch => ch ≠ ']' && ch ≠ '\n')).length with
      | d :: rest => if d = ']' then some rest else none
      | [] => none
    else none
  | [] => none

/-- Alternative `\s*\([^)]+\)`: a parenthesized non-empty segment without ')'. -/
def matchParen (l : List Char) : Option (List Char) :=
  match l.dropWhile isPySpace with
  | c :: rs =>
    if c = '(' then
      match rs.drop (rs.takeWhile (fun ch => ch ≠ ')')).length with
      | d :: rest =>
        if d = ')' then
          if (rs.takeWhile (fun ch => ch ≠ ')')).isEmpty then none else some rest
        else none
      | [] => none
    else none
  | [] => none

/-- Alternative `\s*:\s*$`: a colon followed only by whitespace up to the end
of the string. -/
def matchColonEnd (l : List Char) : Option (List Char) :=
  match l.dropWhile isPySpace with
  | c :: rs => if c = ':' then (if (rs.dropWhile isPySpace).isEmpty then some [] else none) else none
  | [] => none

/-- The full alternation `\s*[-—].*|\s*\[.*?\]|\s*\([^)]+\)|\s*:\s*$`,
alternatives tried left to right at one position. -/
def subMatch (l : List Char) : Option (List Char) :=
  match matchDash l with
  | some r => some r
  | none =>
    match matchBracket l with
    | some r => some r
    | none =>
      match matchParen l with
      | some r => some r
      | none => matchColonEnd l

/-- re.sub of the alternation with '' : scan left to right, at each position
try the alternation, replace a match by nothing and continue after it. -/
def sub1F (fuel : Nat) (l : List Char) : List Char :=
  match l with
  | [] => []
  | c :: cs =>
    match fuel with
    | 0 => c :: cs
    | fuel+1 =>
      match subMatch (c :: cs) with
      | some rest => sub1F fuel rest
      | none => c :: sub1F fuel cs

def sub1 (l : List Char) : List Char := sub1F l.length l

/-- re.sub(r'\s+', ' '): collapse every maximal whitespace run to one space. -/
def collapseWSF (fuel : Nat) (l : List Char) : List Char :=
  match l with
  | [] => []
  | c :: cs =>
    match fuel with
    | 0 => c :: cs
    | fuel+1 =>
      if isPySpace c then ' ' :: collapseWSF fuel (cs.dropWhile isPySpace)
      else c :: collapseWSF fuel cs

def collapseWS (l : List Char) : List Char := collapseWSF l.length l

/-- clean_display_name (lines 13-26 of the source): entity unescaping and
strip, suffix-stripping regex and strip, removal of characters that are
neither word characters nor whitespace and strip, whitespace collapsing,
strip, lower-casing. -/
def clean_display_name (l : List Char) : List Char :=
  toLowerL (pyStrip (collapseWS (pyStrip
    ((pyStrip (sub1 (pyStrip (replaceAll "&gt;".toList ">".toList
      (replaceAll "&lt;".toList "<".toList l))))).filter
        (fun c => isWordChar c || isPySpace c)))))

/-! ### Participant map (lines 69-108) -/

/-- The per-session participant map: an insertion-ordered association list
from normalized display names to canonical identifiers, mirroring the
insertion-ordered Python dict. -/
abbrev PMap := List (List Char × List Char)

/-- First-match lookup (Python dict lookup; keys are unique by construction). -/
def lookupKey (k : List Char) : PMap → Option (List Char)
  | [] => none
  | (k2, v) :: rest => if k2 = k then some v else lookupKey k rest

/-- `if key and key not in map: map[key] = value` -/
def addKey (m : PMap) (k v : List Char) : PMap :=
  if k ≠ [] ∧ lookupKey k m = none then m ++ [(k, v)] else m

/-- Whether a segment (the text strictly between '(' and the first following
')') matches `[^)]+@[^)]+\.[^)]+` : an '@' preceded by at least one character
and followed, at distance at least 2, by a '.' that has at least one
character after it inside the segment. -/
def segOk (s : List Char) : Bool :=
  (List.range s.length).any (fun i =>
    decide (s.getD i ' ' = '@') && decide (1 ≤ i) &&
    (List.range s.length).any (fun j =>
      decide (s.getD j ' ' = '.') && decide (i + 2 ≤ j) && decide (j + 2 ≤ s.length)))

/-- re.search(r'\(([^)]+@[^)]+\.[^)]+)\)', text): scan left to right for the
first '(' whose segment (up to the first following ')') matches; group(1) is
that whole segment. -/
def findIdentifier : List Char → Option (List Char)
  | [] => none
  | c :: rest =>
    if c = '(' then
      match rest.drop (rest.takeWhile (fun ch => ch ≠ ')')).length with
      | d :: _ =>
        if d = ')' ∧ segOk (rest.takeWhile (fun ch => ch ≠ ')')) then
          some (rest.takeWhile (fun ch => ch ≠ ')'))
        else findIdentifier rest
      | [] => findIdentifier rest
    else findIdentifier rest

/-- name.split(' ')[0] (the normalized names carry single spaces). -/
def firstTok (l : List Char) : List Char := l.takeWhile (fun c => c ≠ ' ')

/-- Lines 90-103: register the lightly normalized display name, the heavily
normalized name, and its first token, each mapping to the primary
identifier, each inserted only when non-empty and absent. -/
def registerVariants (m : PMap) (dnp pid : List Char) : PMap :=
  addKey (addKey (addKey m (toLowerL dnp) pid) (clean_display_name dnp) pid)
    (firstTok (clean_display_name dnp)) pid

/-- Processing of one roster <li> entry (lines 76-108): extract the
parenthesized email-shaped identifier; on success register the lightly
normalized name, the heavily normalized name and its first token; otherwise
register the cleaned entry text mapping to itself. -/
def processRosterEntry (m : PMap) (entry : List Char) : PMap :=
  match findIdentifier entry with
  | some seg =>
    registerVariants m (pyStrip (replaceAll ('(' :: (seg ++ [')'])) [] entry)) (toLowerL seg)
  | none => addKey m (clean_display_name entry) (clean_display_name entry)

def buildMap (roster : List (List Char)) : PMap := roster.foldl processRosterEntry []

/-! ### Attribution (lines 138-174) -/

/-- Python substring test `p in l` (contiguous occurrence). -/
def isSubstringL (p : List Char) : List Char → Bool
  | [] => p.isEmpty
  | c :: rest => p.isPrefixOf (c :: rest) || isSubstringL p rest

/-- The final fallback (lines 166-170): iterate the map in insertion order;
the first key that is a substring of the heavily normalized sender text, or
of which that text is a substring, wins. -/
def substringFallback (v2 : List Char) : PMap → Option (List Char)
  | [] => none
  | (k, id2) :: rest =>
    if isSubstringL k v2 || isSubstringL v2 k then some id2 else substringFallback v2 rest

/-- The attribution chain (lines 156-170): exact lookup of the heavily
normalized variant, then of its first token, then of the lightly normalized
variant, then the substring fallback. -/
def resolveIdentifier (m : PMap) (sender : List Char) : Option (List Char) :=
  match lookupKey (clean_display_name sender) m with
  | some id2 => some id2
  | none =>
    match lookupKey (firstTok (clean_display_name sender)) m with
    | some id2 => some id2
    | none =>
      match lookupKey (toLowerL sender) m with
      | some id2 => some id2
      | none => substringFallback (clean_display_name sender) m

/-- Label assignment (lines 172-174); the Python truthiness test on the
resolved identifier makes an empty string count as unresolved. -/
def fromField (user : List Char) (resolved : Option (List Char)) : String :=
  match resolved with
  | some id2 => if id2 ≠ [] ∧ toLowerL user = toLowerL id2 then "gpt" else "human"
  | none => "human"

/-! ### Message rows (lines 115-181) -/

/-- One <tr> of a session, as delivered by the HTML collaborator: whether the
row carries the msgplus (status) class, and the extracted plain texts of the
time marker, sender cell and content cell when those elements are present. -/
structure Row where
  msgplus : Bool
  time : Option (List Char)
  sender : Option (List Char)
  content : Option (List Char)

/-- One retained message; the timestamp mirrors the full_timestamp local of
the source (computed per row, not serialized). -/
structure Msg where
  timestamp : List Char
  fromLabel : String
  value : List Char

/-- str.rstrip(':') -/
def rstripColon (l : List Char) : List Char := dropTail (fun c => c = ':') l

/-- Lines 126-128: drop parentheses from the time text and append dummy
seconds when only hour:minute is present (exactly one ':'). -/
def formatTime (t : List Char) : List Char :=
  let t0 := t.filter (fun c => c ≠ '(' && c ≠ ')')
  if t0.count ':' = 1 then t0 ++ [':', '0', '0'] else t0

/-- The noise filter (lines 150-153). -/
def isNoise (content : List Char) : Bool :=
  let t := toLowerL (pyStrip content)
  "http://".toList.isPrefixOf t || "https://".toList.isPrefixOf t ||
  "ping? [request]".toList.isPrefixOf t

/-- Processing of one row (lines 115-181): skip status rows and rows missing
the time marker, sender or content; build the timestamp; normalize the
sender; drop noise; attribute and label. -/
def processRow (sessionDate : List Char) (m : PMap) (user : List Char) (r : Row) : Option Msg :=
  if r.msgplus then none
  else
    match r.time, r.sender, r.content with
    | some t, some sRaw, some c =>
      if isNoise c then none
      else
        some ⟨sessionDate ++ (',' :: ' ' :: formatTime t),
              fromField user (resolveIdentifier m (pyStrip (rstripColon sRaw))), c⟩
    | _, _, _ => none

/-! ### Session date (lines 48-67) -/

/-- Match of `\d{1,2} \w+ \d{4}` starting at the head of the list: the tail
after the day and its following space. -/
def matchDateTail (l : List Char) : Option (List Char) :=
  let w := l.takeWhile isWordChar
  if w.isEmpty then none
  else
    match l.drop w.length with
    | sp :: rest =>
      if sp = ' ' then
        match rest with
        | d1 :: d2 :: d3 :: d4 :: _ =>
          if d1.isDigit && d2.isDigit && d3.isDigit && d4.isDigit then
            some (w ++ (' ' :: [d1, d2, d3, d4]))
          else none
        | _ => none
      else none
    | [] => none

/-- Match of `\d{1,2} \w+ \d{4}` at one position (greedy two-digit day first;
no backtracking is possible beyond the one-digit retry). -/
def matchDateAt (l : List Char) : Option (List Char) :=
  match l with
  | a :: b :: rest =>
    if a.isDigit then
      if b.isDigit then
        match rest with
        | sp :: rest2 =>
          if sp = ' ' then (matchDateTail rest2).map (fun t => a :: b :: ' ' :: t) else none
        | [] => none
      else if b = ' ' then (matchDateTail rest).map (fun t => a :: ' ' :: t)
      else none
    else none
  | _ => none

/-- re.search of the date pattern: leftmost match. -/
def findDatePat : List Char → Option (List Char)
  | [] => none
  | c :: cs =>
    match matchDateAt (c :: cs) with
    | some m => some m
    | none => findDatePat cs

/-- The French-to-English month table of lines 56-61, in insertion order. -/
def frenchMonths : List (List Char × List Char) :=
  [("janvier".toList, "January".toList), ("février".toList, "February".toList),
   ("mars".toList, "March".toList), ("avril".toList, "April".toList),
   ("mai".toList, "May".toList), ("juin".toList, "June".toList),
   ("juillet".toList, "July".toList), ("août".toList, "August".toList),
   ("septembre".toList, "September".toList), ("octobre".toList, "October".toList),
   ("novembre".toList, "November".toList), ("décembre".toList, "December".toList)]

/-- The sequential str.replace loop of lines 62-63. -/
def applyFrenchMonths (l : List Char) : List Char :=
  frenchMonths.foldl (fun acc p => replaceAll p.1 p.2 acc) l

/-- Full English month names, matched case-insensitively as strptime does. -/
def monthNum (w : List Char) : Option Nat :=
  let lw := toLowerL w
  if lw = "january".toList then some 1
  else if lw = "february".toList then some 2
  else if lw = "march".toList then some 3
  else if lw = "april".toList then some 4
  else if lw = "may".toList then some 5
  else if lw = "june".toList then some 6
  else if lw = "july".toList then some 7
  else if lw = "august".toList then some 8
  else if lw = "september".toList then some 9
  else if lw = "october".toList then some 10
  else if lw = "november".toList then some 11
  else if lw = "december".toList then some 12
  else none

def isLeap (y : Nat) : Bool := (y % 4 = 0 && y % 100 ≠ 0) || y % 400 = 0

def daysInMonth (y m : Nat) : Nat :=
  if m = 2 then (if isLeap y then 29 else 28)
  else if m = 4 || m = 6 || m = 9 || m = 11 then 30 else 31

def digitsToNat (l : List Char) : Nat := l.foldl (fun acc c => acc * 10 + (c.toNat - 48)) 0

/-- datetime.strptime(s, '%d %B %Y') on the matched text: a 1-2 digit day, a
space, a full month name (case-insensitive), a space, a 4-digit year; the day
must exist in that month and the year be at least datetime.MINYEAR = 1. -/
def parseDate (l : List Char) : Option (Nat × Nat × Nat) :=
  let dayDigits := l.takeWhile Char.isDigit
  if dayDigits.isEmpty then none
  else
    match l.drop dayDigits.length with
    | sp1 :: rest =>
      if sp1 = ' ' then
        let monthWord := rest.takeWhile (fun c => c ≠ ' ')
        match rest.drop monthWord.length with
        | sp2 :: yearDigits =>
          if sp2 = ' ' ∧ yearDigits.length = 4 ∧ yearDigits.all Char.isDigit then
            match monthNum monthWord with
            | some m =>
              let d := digitsToNat dayDigits
              let y := digitsToNat yearDigits
              if dayDigits.length ≤ 2 ∧ 1 ≤ d ∧ d ≤ daysInMonth y m ∧ 1 ≤ y then
                some (y, m, d)
              else none
            | none => none
          else none
        | [] => none
      else none
    | [] => none

def pad2 (n : Nat) : List Char :=
  if n < 10 then ['0', Char.ofNat (48 + n)]
  else [Char.ofNat (48 + n / 10), Char.ofNat (48 + n % 10)]

/-- strftime('%y.%m.%d') -/
def formatDate (ymd : Nat × Nat × Nat) : List Char :=
  pad2 (ymd.1 % 100) ++ ('.' :: pad2 ymd.2.1) ++ ('.' :: pad2 ymd.2.2)

def ukDate : List Char := "UNKNOWN_DATE".toList

/-- Lines 48-67: the session date stays "UNKNOWN_DATE" when the <h2> is
missing, the date pattern does not match, or strptime fails. -/
def sessionDateOf (header : Option (List Char)) : List Char :=
  match header with
  | none => ukDate
  | some h =>
    match findDatePat h with
    | none => ukDate
    | some dp =>
      match parseDate (applyFrenchMonths dp) with
      | none => ukDate
      | some ymd => formatDate ymd

/-! ### Sessions, documents, chunked output (lines 44-203) -/

/-- One mplsession <div>: the <h2> text, the <ul> roster entries, the <tr>
rows. -/
structure Session where
  header : Option (List Char)
  roster : List (List Char)
  rows : List Row

def processSession (user : List Char) (s : Session) : List Msg :=
  s.rows.filterMap (processRow (sessionDateOf s.header) (buildMap s.roster) user)

/-- The document-level accumulation of retained messages across sessions. -/
def processDocument (user : List Char) (sessions : List Session) : List Msg :=
  sessions.foldl (fun acc s => acc ++ processSession user s) []

/-- The serialized form of one message: (from, value). -/
abbrev Conv := String × List Char

def toConv (m : Msg) : Conv := (m.fromLabel, m.value)

/-- range(0, len, 40) slicing; fuel = length bounds the iteration count. -/
def chunk40F {α : Type} (fuel : Nat) (l : List α) : List (List α) :=
  match l with
  | [] => []
  | c :: cs =>
    match fuel with
    | 0 => [c :: cs]
    | fuel+1 => (c :: cs).take 40 :: chunk40F fuel ((c :: cs).drop 40)

def chunk40 {α : Type} (l : List α) : List (List α) := chunk40F l.length l

/-- Lines 189-203: above 40 messages, emit the consecutive 40-chunks of at
least 3 messages; otherwise one file unless the sequence has fewer than 3
messages. -/
def outputFiles {α : Type} (l : List α) : List (List α) :=
  if 40 < l.length then (chunk40 l).filter (fun c => decide (3 ≤ c.length))
  else if l.length < 3 then [] else [l]

/-- The list of written files for one document. -/
def documentFiles (user : List Char) (sessions : List Session) : List (List Conv) :=
  outputFiles ((processDocument user sessions).map toConv)

/-! ### Specification-side restatement and proof-side predicates -/

/-- The attribution algorithm as the specification words it: an ordered
orElse chain of the three exact lookups followed by a first-match search of
the map in insertion order with the two-sided substring test. -/
def resolveIdentifierSpec (m : PMap) (sender : List Char) : Option (List Char) :=
  (lookupKey (clean_display_name sender) m).orElse (fun _ =>
    (lookupKey (firstTok (clean_display_name sender)) m).orElse (fun _ =>
      (lookupKey (toLowerL sender) m).orElse (fun _ =>
        (m.find? (fun kv =>
          isSubstringL kv.1 (clean_display_name sender) ||
          isSubstringL (clean_display_name sender) kv.1)).map (fun kv => kv.2))))

/-- Whether the first character (if any) satisfies p. -/
def headSat (p : Char → Bool) : List Char → Bool
  | [] => false
  | c :: _ => p c

/-- Whether the last character (if any) satisfies p. -/
def lastSat (p : Char → Bool) : List Char → Bool
  | [] => false
  | [c] => p c
  | _ :: c :: rest => lastSat p (c :: rest)

/-- No two adjacent whitespace characters. -/
def NoAdjSpace : List Char → Prop
  | a :: b :: rest => ¬(isPySpace a = true ∧ isPySpace b = true) ∧ NoAdjSpace (b :: rest)
  | _ => True

/-! ## Character-level lemmas -/

theorem ofNatShift_toNat (n : Nat) (h1 : 65 ≤ n) (h2 : n ≤ 90) :
    (Char.ofNat (n + 32)).toNat = n + 32 := by
  interval_cases n <;> decide

theorem pyToLower_toNat_of_upper {c : Char} (h : 65 ≤ c.toNat ∧ c.toNat ≤ 90) :
    (pyToLower c).toNat = c.toNat + 32 := by
  unfold pyToLower
  rw [if_pos h]
  exact ofNatShift_toNat c.toNat h.1 h.2

theorem pyToLower_eq_self {c : Char} (h : ¬(65 ≤ c.toNat ∧ c.toNat ≤ 90)) :
    pyToLower c = c := by
  unfold pyToLower
  rw [if_neg h]

theorem char_toNat_inj {c d : Char} (h : c.toNat = d.toNat) : c = d := by
  apply Char.ext
  apply UInt32.ext
  simpa [Char.toNat] using h

theorem space_toNat {c : Char} (h : isPySpace c = true) :
    c.toNat = 32 ∨ c.toNat = 9 ∨ c.toNat = 10 ∨ c.toNat = 13 ∨ c.toNat = 11 ∨ c.toNat = 12 := by
  simp [isPySpace] at h
  omega

theorem space_of_toNat {c : Char}
    (h : c.toNat = 32 ∨ c.toNat = 9 ∨ c.toNat = 10 ∨ c.toNat = 13 ∨ c.toNat = 11 ∨ c.toNat = 12) :
    isPySpace c = true := by
  simp [isPySpace]
  omega

theorem word_toNat {c : Char} (h : isWordChar c = true) :
    (48 ≤ c.toNat ∧ c.toNat ≤ 57) ∨ (65 ≤ c.toNat ∧ c.toNat ≤ 90) ∨
    (97 ≤ c.toNat ∧ c.toNat ≤ 122) ∨ c.toNat = 95 ∨ (192 ≤ c.toNat ∧ c.toNat ≤ 255) := by
  simp [isWordChar] at h
  rcases h with ((((h | h) | h) | h) | h)
  · exact Or.inl h
  · exact Or.inr (Or.inl h)
  · exact Or.inr (Or.inr (Or.inl h))
  · subst h
    exact Or.inr (Or.inr (Or.inr (Or.inl (by decide))))
  · exact Or.inr (Or.inr (Or.inr (Or.inr ⟨h.1.1.1, h.1.1.2⟩)))

theorem word_not_space {c : Char} (h : isWordChar c = true) : isPySpace c = false := by
  cases hsp : isPySpace c with
  | false => rfl
  | true =>
    have h1 := word_toNat h
    have h2 := space_toNat hsp
    omega

theorem space_not_word {c : Char} (h : isPySpace c = true) : isWordChar c = false := by
  cases hw : isWordChar c with
  | false => rfl
  | true =>
    have h1 := word_toNat hw
    have h2 := space_toNat h
    omega

theorem word_of_lower_range {c : Char} (h1 : 97 ≤ c.toNat) (h2 : c.toNat ≤ 122) :
    isWordChar c = true := by
  simp [isWordChar]
  exact Or.inl (Or.inl (Or.inr ⟨h1, h2⟩))

theorem space_eq_of_toNat {c : Char} (h : c.toNat = 32) : c = ' ' :=
  char_toNat_inj (by rw [h]; rfl)

theorem pyToLower_pyToLower (c : Char) : pyToLower (pyToLower c) = pyToLower c := by
  by_cases h : 65 ≤ c.toNat ∧ c.toNat ≤ 90
  · have ht := pyToLower_toNat_of_upper h
    exact pyToLower_eq_self (by omega)
  · rw [pyToLower_eq_self h, pyToLower_eq_self h]

theorem isPySpace_pyToLower (c : Char) : isPySpace (pyToLower c) = isPySpace c := by
  by_cases h : 65 ≤ c.toNat ∧ c.toNat ≤ 90
  · have ht := pyToLower_toNat_of_upper h
    have h1 : isPySpace (pyToLower c) = false := by
      cases hsp : isPySpace (pyToLower c) with
      | false => rfl
      | true => have := space_toNat hsp; omega
    have h2 : isPySpace c = false := by
      cases hsp : isPySpace c with
      | false => rfl
      | true => have := space_toNat hsp; omega
    rw [h1, h2]
  · rw [pyToLower_eq_self h]

theorem isWordChar_pyToLower {c : Char} (h : isWordChar c = true) :
    isWordChar (pyToLower c) = true := by
  by_cases hr : 65 ≤ c.toNat ∧ c.toNat ≤ 90
  · have ht := pyToLower_toNat_of_upper hr
    exact word_of_lower_range (by omega) (by omega)
  · rw [pyToLower_eq_self hr]
    exact h

/-! ## Strip / head / last lemmas -/

theorem mem_of_dropWhile {p : Char → Bool} {l : List Char} {c : Char}
    (h : c ∈ l.dropWhile p) : c ∈ l :=
  List.Sublist.mem h (List.dropWhile_sublist p)

theorem dropTail_cons (p : Char → Bool) (c : Char) (cs : List Char) :
    dropTail p (c :: cs) = if (dropTail p cs).isEmpty && p c then [] else c :: dropTail p cs := rfl

theorem dropTail_nil (p : Char → Bool) : dropTail p [] = [] := rfl

theorem mem_of_dropTail {p : Char → Bool} {l : List Char} {c : Char}
    (h : c ∈ dropTail p l) : c ∈ l := by
  induction l with
  | nil => simpa [dropTail_nil] using h
  | cons d ds ih =>
    rw [dropTail_cons] at h
    by_cases hc : (dropTail p ds).isEmpty && p d
    · rw [if_pos hc] at h
      cases h
    · rw [if_neg hc] at h
      rcases List.mem_cons.mp h with h | h
      · exact List.mem_cons.mpr (Or.inl h)
      · exact List.mem_cons.mpr (Or.inr (ih h))

theorem dropTail_head {p : Char → Bool} {l : List Char} {c : Char} {rs : List Char}
    (h : dropTail p l = c :: rs) : ∃ xs, l = c :: xs := by
  cases l with
  | nil => simp [dropTail_nil] at h
  | cons d ds =>
    rw [dropTail_cons] at h
    by_cases hc : (dropTail p ds).isEmpty && p d
    · rw [if_pos hc] at h
      cases h
    · rw [if_neg hc] at h
      injection h with h1 h2
      exact ⟨ds, by rw [h1]⟩

theorem lastSat_cons2 (p : Char → Bool) (a b : Char) (r : List Char) :
    lastSat p (a :: b :: r) = lastSat p (b :: r) := rfl

theorem lastSat_dropTail (p : Char → Bool) (l : List Char) :
    lastSat p (dropTail p l) = false := by
  induction l with
  | nil => rfl
  | cons d ds ih =>
    rw [dropTail_cons]
    by_cases hc : (dropTail p ds).isEmpty && p d
    · rw [if_pos hc]
      rfl
    · rw [if_neg hc]
      cases hd : dropTail p ds with
      | nil =>
        rw [hd] at hc
        simp at hc
        simpa [lastSat] using hc
      | cons e es =>
        rw [hd] at ih
        rw [lastSat_cons2, ← hd]
        rw [hd]
        exact ih

theorem dropTail_id {p : Char → Bool} {l : List Char} (h : lastSat p l = false) :
    dropTail p l = l := by
  induction l with
  | nil => rfl
  | cons d ds ih =>
    cases ds with
    | nil =>
      rw [dropTail_cons, dropTail_nil]
      have : p d = false := h
      simp [this]
    | cons e es =>
      have h2 : lastSat p (e :: es) = false := h
      rw [dropTail_cons, ih h2]
      simp

theorem headSat_dropWhile (p : Char → Bool) (l : List Char) :
    headSat p (l.dropWhile p) = false := by
  induction l with
  | nil => rfl
  | cons d ds ih =>
    rw [List.dropWhile_cons]
    by_cases hc : p d = true
    · rw [if_pos hc]
      exact ih
    · rw [if_neg hc]
      simpa [headSat] using hc

theorem headSat_dropTail {p q : Char → Bool} {l : List Char}
    (h : headSat q l = false) : headSat q (dropTail p l) = false := by
  cases l with
  | nil => rfl
  | cons d ds =>
    rw [dropTail_cons]
    by_cases hc : (dropTail p ds).isEmpty && p d
    · rw [if_pos hc]
      rfl
    · rw [if_neg hc]
      exact h

theorem pyStrip_headSat (l : List Char) : headSat isPySpace (pyStrip l) = false :=
  headSat_dropTail (headSat_dropWhile isPySpace l)

theorem pyStrip_lastSat (l : List Char) : lastSat isPySpace (pyStrip l) = false :=
  lastSat_dropTail isPySpace _

theorem mem_of_pyStrip {l : List Char} {c : Char} (h : c ∈ pyStrip l) : c ∈ l :=
  mem_of_dropWhile (mem_of_dropTail h)

theorem pyStrip_id {l : List Char} (h1 : headSat isPySpace l = false)
    (h2 : lastSat isPySpace l = false) : pyStrip l = l := by
  unfold pyStrip
  have hd : l.dropWhile isPySpace = l := by
    cases l with
    | nil => rfl
    | cons d ds =>
      rw [List.dropWhile_cons, if_neg]
      simpa [headSat] using h1
  rw [hd]
  exact dropTail_id h2

/-! ## NoAdjSpace lemmas -/

theorem noAdjSpace_nil : NoAdjSpace [] := trivial

theorem noAdjSpace_single (c : Char) : NoAdjSpace [c] := trivial

theorem noAdjSpace_cons2 {a b : Char} {r : List Char} :
    NoAdjSpace (a :: b :: r) ↔
      ¬(isPySpace a = true ∧ isPySpace b = true) ∧ NoAdjSpace (b :: r) := Iff.rfl

theorem NoAdjSpace.tail {a : Char} {l : List Char} (h : NoAdjSpace (a :: l)) :
    NoAdjSpace l := by
  cases l with
  | nil => trivial
  | cons b r => exact (noAdjSpace_cons2.mp h).2

theorem noAdjSpace_cons {a : Char} {l : List Char} (h : NoAdjSpace l)
    (hh : isPySpace a = false ∨ headSat isPySpace l = false) : NoAdjSpace (a :: l) := by
  cases l with
  | nil => trivial
  | cons b r =>
    refine noAdjSpace_cons2.mpr ⟨?_, h⟩
    rintro ⟨ha, hb⟩
    rcases hh with hh | hh
    · rw [hh] at ha
      cases ha
    · rw [show headSat isPySpace (b :: r) = isPySpace b from rfl, hb] at hh
      cases hh

theorem noAdjSpace_dropWhile {p : Char → Bool} {l : List Char} (h : NoAdjSpace l) :
    NoAdjSpace (l.dropWhile p) := by
  induction l with
  | nil => trivial
  | cons d ds ih =>
    rw [List.dropWhile_cons]
    by_cases hc : p d = true
    · rw [if_pos hc]
      exact ih h.tail
    · rw [if_neg hc]
      exact h

theorem noAdjSpace_dropTail {p : Char → Bool} {l : List Char} (h : NoAdjSpace l) :
    NoAdjSpace (dropTail p l) := by
  induction l with
  | nil => trivial
  | cons d ds ih =>
    rw [dropTail_cons]
    by_cases hc : (dropTail p ds).isEmpty && p d
    · rw [if_pos hc]
      trivial
    · rw [if_neg hc]
      cases hd : dropTail p ds with
      | nil => exact noAdjSpace_single d
      | cons e es =>
        obtain ⟨xs, hds⟩ := dropTail_head hd
        have hrec : NoAdjSpace (e :: es) := hd ▸ ih h.tail
        have hpair : ¬(isPySpace d = true ∧ isPySpace e = true) := by
          rw [hds] at h
          exact (noAdjSpace_cons2.mp h).1
        exact noAdjSpace_cons2.mpr ⟨hpair, hrec⟩

theorem noAdjSpace_toLowerL {l : List Char} (h : NoAdjSpace l) :
    NoAdjSpace (toLowerL l) := by
  induction l with
  | nil => trivial
  | cons c cs ih =>
    cases cs with
    | nil => exact noAdjSpace_single _
    | cons d ds =>
      have hmap : toLowerL (c :: d :: ds) = pyToLower c :: pyToLower d :: toLowerL ds := rfl
      rw [hmap]
      refine noAdjSpace_cons2.mpr ⟨?_, ?_⟩
      · rw [isPySpace_pyToLower, isPySpace_pyToLower]
        exact (noAdjSpace_cons2.mp h).1
      · exact ih h.tail

/-! ## collapseWS lemmas -/

theorem collapseWSF_chars {c : Char} :
    ∀ (fuel : Nat) (l : List Char), l.length ≤ fuel → c ∈ collapseWSF fuel l →
      (c ∈ l ∧ isPySpace c = false) ∨ c = ' ' := by
  intro fuel
  induction fuel with
  | zero =>
    intro l hlen hmem
    have : l = [] := List.length_eq_zero.mp (Nat.le_zero.mp hlen)
    subst this
    cases hmem
  | succ f ih =>
    intro l hlen hmem
    cases l with
    | nil => cases hmem
    | cons d ds =>
      rw [show collapseWSF (f+1) (d :: ds) =
            (if isPySpace d then ' ' :: collapseWSF f (ds.dropWhile isPySpace)
             else d :: collapseWSF f ds) from rfl] at hmem
      by_cases hd : isPySpace d = true
      · rw [if_pos hd] at hmem
        rcases List.mem_cons.mp hmem with h | h
        · exact Or.inr h
        · have hlen2 : (ds.dropWhile isPySpace).length ≤ f :=
            Nat.le_trans (List.Sublist.length_le (List.dropWhile_sublist _))
              (Nat.le_of_succ_le_succ hlen)
          rcases ih _ hlen2 h with ⟨hm, hs⟩ | hsp
          · exact Or.inl ⟨List.mem_cons.mpr (Or.inr (mem_of_dropWhile hm)), hs⟩
          · exact Or.inr hsp
      · rw [if_neg hd] at hmem
        rcases List.mem_cons.mp hmem with h | h
        · subst h
          exact Or.inl ⟨List.mem_cons.mpr (Or.inl rfl), Bool.eq_false_iff.mpr hd⟩
        · rcases ih _ (Nat.le_of_succ_le_succ hlen) h with ⟨hm, hs⟩ | hsp
          · exact Or.inl ⟨List.mem_cons.mpr (Or.inr hm), hs⟩
          · exact Or.inr hsp

theorem collapseWSF_headSat :
    ∀ (fuel : Nat) (l : List Char), headSat isPySpace l = false →
      headSat isPySpace (collapseWSF fuel l) = false := by
  intro fuel l h
  cases fuel with
  | zero =>
    cases l with
    | nil => rfl
    | cons d ds => exact h
  | succ f =>
    cases l with
    | nil => rfl
    | cons d ds =>
      have hd : isPySpace d = false := h
      rw [show collapseWSF (f+1) (d :: ds) =
            (if isPySpace d then ' ' :: collapseWSF f (ds.dropWhile isPySpace)
             else d :: collapseWSF f ds) from rfl, hd]
      exact hd

theorem collapseWSF_noAdj :
    ∀ (fuel : Nat) (l : List Char), l.length ≤ fuel → NoAdjSpace (collapseWSF fuel l) := by
  intro fuel
  induction fuel with
  | zero =>
    intro l hlen
    have : l = [] := List.length_eq_zero.mp (Nat.le_zero.mp hlen)
    subst this
    trivial
  | succ f ih =>
    intro l hlen
    cases l with
    | nil => trivial
    | cons d ds =>
      rw [show collapseWSF (f+1) (d :: ds) =
            (if isPySpace d then ' ' :: collapseWSF f (ds.dropWhile isPySpace)
             else d :: collapseWSF f ds) from rfl]
      by_cases hd : isPySpace d = true
      · rw [if_pos hd]
        have hlen2 : (ds.dropWhile isPySpace).length ≤ f :=
          Nat.le_trans (List.Sublist.length_le (List.dropWhile_sublist _))
            (Nat.le_of_succ_le_succ hlen)
        refine noAdjSpace_cons (ih _ hlen2) (Or.inr ?_)
        exact collapseWSF_headSat f _ (headSat_dropWhile isPySpace ds)
      · rw [if_neg hd]
        refine noAdjSpace_cons (ih _ (Nat.le_of_succ_le_succ hlen)) (Or.inl ?_)
        exact Bool.eq_false_iff.mpr hd

theorem collapseWSF_id {l : List Char}
    (hsingle : ∀ c ∈ l, isPySpace c = true → c = ' ') (hna : NoAdjSpace l) :
    ∀ fuel : Nat, collapseWSF fuel l = l := by
  induction l with
  | nil => intro fuel; cases fuel <;> rfl
  | cons d ds ih =>
    intro fuel
    cases fuel with
    | zero => rfl
    | succ f =>
      rw [show collapseWSF (f+1) (d :: ds) =
            (if isPySpace d then ' ' :: collapseWSF f (ds.dropWhile isPySpace)
             else d :: collapseWSF f ds) from rfl]
      have ihds := ih (fun c hc hs => hsingle c (List.mem_cons.mpr (Or.inr hc)) hs) hna.tail
      by_cases hd : isPySpace d = true
      · rw [if_pos hd]
        have hdeq : d = ' ' := hsingle d (List.mem_cons.mpr (Or.inl rfl)) hd
        have hdrop : ds.dropWhile isPySpace = ds := by
          cases ds with
          | nil => rfl
          | cons e es =>
            rw [List.dropWhile_cons, if_neg]
            intro he
            exact (noAdjSpace_cons2.mp hna).1 ⟨hd, he⟩
        rw [hdrop, ihds, hdeq]
      · rw [if_neg hd, ihds]

/-! ## sub1 lemmas -/

theorem head_dropWhile_word {l : List Char} {c : Char} {rs : List Char}
    (hall : ∀ d ∈ l, isWordChar d = true ∨ d = ' ')
    (h : l.dropWhile isPySpace = c :: rs) : isWordChar c = true := by
  have hmem : c ∈ l := mem_of_dropWhile (h ▸ List.mem_cons.mpr (Or.inl rfl))
  have hns : isPySpace c = false := by
    have := headSat_dropWhile isPySpace l
    rw [h] at this
    exact this
  rcases hall c hmem with hw | hsp
  · exact hw
  · subst hsp
    cases hns

theorem subMatch_none {l : List Char}
    (hall : ∀ d ∈ l, isWordChar d = true ∨ d = ' ') : subMatch l = none := by
  have hdash : matchDash l = none := by
    unfold matchDash
    cases h : l.dropWhile isPySpace with
    | nil => rfl
    | cons c rs =>
      have hw := head_dropWhile_word hall h
      have h1 : ¬(c = '-') := by rintro rfl; exact absurd hw (by decide)
      have h2 : ¬(c = '—') := by rintro rfl; exact absurd hw (by decide)
      simp [h1, h2]
  have hbr : matchBracket l = none := by
    unfold matchBracket
    cases h : l.dropWhile isPySpace with
    | nil => rfl
    | cons c rs =>
      have hw := head_dropWhile_word hall h
      have h1 : ¬(c = '[') := by rintro rfl; exact absurd hw (by decide)
      simp [h1]
  have hpar : matchParen l = none := by
    unfold matchParen
    cases h : l.dropWhile isPySpace with
    | nil => rfl
    | cons c rs =>
      have hw := head_dropWhile_word hall h
      have h1 : ¬(c = '(') := by rintro rfl; exact absurd hw (by decide)
      simp [h1]
  have hcol : matchColonEnd l = none := by
    unfold matchColonEnd
    cases h : l.dropWhile isPySpace with
    | nil => rfl
    | cons c rs =>
      have hw := head_dropWhile_word hall h
      have h1 : ¬(c = ':') := by rintro rfl; exact absurd hw (by decide)
      simp [h1]
  unfold subMatch
  rw [hdash, hbr, hpar, hcol]

theorem sub1F_id {l : List Char}
    (hall : ∀ d ∈ l, isWordChar d = true ∨ d = ' ') : ∀ fuel : Nat, sub1F fuel l = l := by
  induction l with
  | nil => intro fuel; cases fuel <;> rfl
  | cons c cs ih =>
    intro fuel
    cases fuel with
    | zero => rfl
    | succ f =>
      rw [show sub1F (f+1) (c :: cs) =
            (match subMatch (c :: cs) with
             | some rest => sub1F f rest
             | none => c :: sub1F f cs) from rfl]
      rw [subMatch_none hall]
      rw [ih (fun d hd => hall d (List.mem_cons.mpr (Or.inr hd)))]

/-! ## replaceAll and toLowerL lemmas -/

theorem replaceAllF_id {p : Char} {ps rep l : List Char} (h : p ∉ l) :
    ∀ fuel : Nat, replaceAllF (p :: ps) rep fuel l = l := by
  induction l with
  | nil => intro fuel; cases fuel <;> rfl
  | cons c cs ih =>
    intro fuel
    cases fuel with
    | zero => rfl
    | succ f =>
      rw [show replaceAllF (p :: ps) rep (f+1) (c :: cs) =
            (if (p :: ps).isPrefixOf (c :: cs) then
               rep ++ replaceAllF (p :: ps) rep f ((c :: cs).drop (p :: ps).length)
             else c :: replaceAllF (p :: ps) rep f cs) from rfl]
      have hpc : ¬(p = c) := fun he => h (he ▸ List.mem_cons.mpr (Or.inl rfl))
      have hpre : (p :: ps).isPrefixOf (c :: cs) = false := by
        simp [List.isPrefixOf, hpc]
      rw [hpre]
      simp only [Bool.false_eq_true, if_false]
      rw [ih (fun hm => h (List.mem_cons.mpr (Or.inr hm)))]

theorem replaceAll_id {pat rep l : List Char} {p : Char} (hp : pat.head? = some p)
    (h : p ∉ l) : replaceAll pat rep l = l := by
  cases pat with
  | nil => cases hp
  | cons q qs =>
    have : q = p := by
      injection hp
    subst this
    unfold replaceAll
    rw [if_neg (by simp)]
    exact replaceAllF_id h l.length

theorem toLowerL_id {l : List Char} (h : ∀ c ∈ l, pyToLower c = c) : toLowerL l = l := by
  unfold toLowerL
  induction l with
  | nil => rfl
  | cons c cs ih =>
    simp only [List.map_cons]
    rw [h c (List.mem_cons.mpr (Or.inl rfl)), ih (fun d hd => h d (List.mem_cons.mpr (Or.inr hd)))]

theorem headSat_toLowerL (l : List Char) :
    headSat isPySpace (toLowerL l) = headSat isPySpace l := by
  cases l with
  | nil => rfl
  | cons c cs => exact isPySpace_pyToLower c

theorem lastSat_toLowerL (l : List Char) :
    lastSat isPySpace (toLowerL l) = lastSat isPySpace l := by
  induction l with
  | nil => rfl
  | cons c cs ih =>
    cases cs with
    | nil => exact isPySpace_pyToLower c
    | cons d ds =>
      rw [show toLowerL (c :: d :: ds) = pyToLower c :: toLowerL (d :: ds) from rfl]
      rw [show lastSat isPySpace (pyToLower c :: toLowerL (d :: ds)) =
            lastSat isPySpace (toLowerL (d :: ds)) from ?_]
      · rw [lastSat_cons2]
        exact ih
      · cases hds : toLowerL (d :: ds) with
        | nil => cases hds
        | cons e es => exact lastSat_cons2 _ _ _ _

/-! ## Characterization of clean_display_name output -/

theorem clean_chars {l : List Char} {c : Char} (hc : c ∈ clean_display_name l) :
    isWordChar c = true ∨ c = ' ' := by
  unfold clean_display_name at hc
  rcases List.mem_map.mp hc with ⟨d, hd, hdc⟩
  have hd2 : d ∈ collapseWS (pyStrip
      ((pyStrip (sub1 (pyStrip (replaceAll "&gt;".toList ">".toList
        (replaceAll "&lt;".toList "<".toList l))))).filter
          (fun c => isWordChar c || isPySpace c))) := mem_of_pyStrip hd
  unfold collapseWS at hd2
  rcases collapseWSF_chars _ _ (Nat.le_refl _) hd2 with ⟨hmem, hns⟩ | hsp
  · have hws : (isWordChar d || isPySpace d) = true :=
      (List.mem_filter.mp (mem_of_pyStrip hmem)).2
    have hw : isWordChar d = true := by
      rcases Bool.or_eq_true_iff.mp hws with h | h
      · exact h
      · rw [h] at hns
        cases hns
    subst hdc
    exact Or.inl (isWordChar_pyToLower hw)
  · subst hsp
    subst hdc
    right
    rfl

theorem clean_lower {l : List Char} {c : Char} (hc : c ∈ clean_display_name l) :
    pyToLower c = c := by
  unfold clean_display_name at hc
  rcases List.mem_map.mp hc with ⟨d, _, hdc⟩
  subst hdc
  exact pyToLower_pyToLower d

theorem stageFour_noAdj (s : List Char) :
    NoAdjSpace (toLowerL (pyStrip (collapseWS s))) := by
  refine noAdjSpace_toLowerL ?_
  unfold pyStrip
  refine noAdjSpace_dropTail (noAdjSpace_dropWhile ?_)
  unfold collapseWS
  exact collapseWSF_noAdj _ _ (Nat.le_refl _)

theorem stageFour_headSat (s : List Char) :
    headSat isPySpace (toLowerL (pyStrip (collapseWS s))) = false := by
  rw [headSat_toLowerL]
  exact pyStrip_headSat _

theorem stageFour_lastSat (s : List Char) :
    lastSat isPySpace (toLowerL (pyStrip (collapseWS s))) = false := by
  rw [lastSat_toLowerL]
  exact pyStrip_lastSat _

theorem clean_noAdj (l : List Char) : NoAdjSpace (clean_display_name l) :=
  stageFour_noAdj _

theorem clean_headSat (l : List Char) :
    headSat isPySpace (clean_display_name l) = false :=
  stageFour_headSat _

theorem clean_lastSat (l : List Char) :
    lastSat isPySpace (clean_display_name l) = false :=
  stageFour_lastSat _

set_option maxHeartbeats 1000000 in
/-- C5: The heavy name-normalization function is idempotent: for every input
string s, clean_display_name (clean_display_name s) = clean_display_name s. -/
theorem clean_display_name_idem (l : List Char) :
    clean_display_name (clean_display_name l) = clean_display_name l := by
  have hchars : ∀ c ∈ clean_display_name l, isWordChar c = true ∨ c = ' ' :=
    fun c hc => clean_chars hc
  have hna : NoAdjSpace (clean_display_name l) := clean_noAdj l
  have hhd : headSat isPySpace (clean_display_name l) = false := clean_headSat l
  have hlast : lastSat isPySpace (clean_display_name l) = false := clean_lastSat l
  have hlow : ∀ c ∈ clean_display_name l, pyToLower c = c := fun c hc => clean_lower hc
  have hamp : '&' ∉ clean_display_name l := by
    intro hmem
    rcases hchars '&' hmem with h | h
    · exact absurd h (by decide)
    · exact absurd h (by decide)
  have hstrip : pyStrip (clean_display_name l) = clean_display_name l := pyStrip_id hhd hlast
  have hlt : replaceAll "&lt;".toList "<".toList (clean_display_name l) = clean_display_name l :=
    replaceAll_id (by decide) hamp
  have hgt : replaceAll "&gt;".toList ">".toList (clean_display_name l) = clean_display_name l :=
    replaceAll_id (by decide) hamp
  have hsub : sub1 (clean_display_name l) = clean_display_name l := sub1F_id hchars _
  have hfil : (clean_display_name l).filter (fun c => isWordChar c || isPySpace c) =
      clean_display_name l := by
    refine List.filter_eq_self.mpr ?_
    intro c hc
    rcases hchars c hc with h | h
    · rw [h]
      rfl
    · subst h
      decide
  have hcol : collapseWS (clean_display_name l) = clean_display_name l := by
    unfold collapseWS
    refine collapseWSF_id ?_ hna _
    intro c hc hs
    rcases hchars c hc with h | h
    · rw [word_not_space h] at hs
      cases hs
    · exact h
  have hlowid : toLowerL (clean_display_name l) = clean_display_name l := toLowerL_id hlow
  conv_lhs => rw [clean_display_name]
  rw [hlt, hgt, hstrip, hsub, hstrip, hfil, hstrip, hcol, hstrip, hlowid]

/-! ## Participant-map lemmas -/

theorem lookupKey_cons (k k2 v : List Char) (rest : PMap) :
    lookupKey k ((k2, v) :: rest) = if k2 = k then some v else lookupKey k rest := rfl

theorem lookupKey_append_left {k v : List Char} {m : PMap} (h : lookupKey k m = some v)
    (m2 : PMap) : lookupKey k (m ++ m2) = some v := by
  induction m with
  | nil => cases h
  | cons p rest ih =>
    obtain ⟨k2, v2⟩ := p
    rw [lookupKey_cons] at h
    rw [List.cons_append, lookupKey_cons]
    by_cases hk : k2 = k
    · rw [if_pos hk] at h ⊢
      exact h
    · rw [if_neg hk] at h ⊢
      exact ih h

theorem lookupKey_addKey {k v : List Char} {m : PMap} (h : lookupKey k m = some v)
    (k2 v2 : List Char) : lookupKey k (addKey m k2 v2) = some v := by
  unfold addKey
  split
  · exact lookupKey_append_left h _
  · exact h

theorem processRosterEntry_preserves {k v : List Char} {m : PMap}
    (h : lookupKey k m = some v) (e : List Char) :
    lookupKey k (processRosterEntry m e) = some v := by
  unfold processRosterEntry
  cases findIdentifier e with
  | some seg =>
    unfold registerVariants
    exact lookupKey_addKey (lookupKey_addKey (lookupKey_addKey h _ _) _ _) _ _
  | none => exact lookupKey_addKey h _ _

/-- C3: Once a normalized key maps to a canonical identifier, processing
any sequence of later roster entries leaves that binding unchanged
(first registration wins, for every kind of key). -/
theorem participant_map_first_write_wins (entries : List (List Char)) (m : PMap)
    (k v : List Char) (h : lookupKey k m = some v) :
    lookupKey k (entries.foldl processRosterEntry m) = some v := by
  induction entries generalizing m with
  | nil => exact h
  | cons e es ih =>
    rw [List.foldl_cons]
    exact ih _ (processRosterEntry_preserves h e)

/-- Witness for C3 at a concrete map and roster entry that would rebind the
key "bob". -/
theorem participant_map_first_write_wins_w :
    lookupKey "bob".toList
      ([("Bob (bob2@second.org)".toList)].foldl processRosterEntry
        [("bob".toList, "bob@first.org".toList)]) = some "bob@first.org".toList :=
  participant_map_first_write_wins _ _ _ _ (by decide)

/-! ## Non-emptiness invariants of built participant maps -/

theorem segOk_nil_false : segOk [] = false := rfl

theorem findIdentifier_ne_nil : ∀ {l s : List Char}, findIdentifier l = some s → s ≠ [] := by
  intro l
  induction l with
  | nil => intro s h; cases h
  | cons c rest ih =>
    intro s h
    rw [show findIdentifier (c :: rest) =
          (if c = '(' then
            match rest.drop (rest.takeWhile (fun ch => ch ≠ ')')).length with
            | d :: _ =>
              if d = ')' ∧ segOk (rest.takeWhile (fun ch => ch ≠ ')')) then
                some (rest.takeWhile (fun ch => ch ≠ ')'))
              else findIdentifier rest
            | [] => findIdentifier rest
          else findIdentifier rest) from rfl] at h
    by_cases hc : c = '('
    · rw [if_pos hc] at h
      split at h
      · split at h
        · injection h with h2
          subst h2
          intro hnil
          rename_i hcond
          rw [hnil] at hcond
          exact absurd hcond.2 (by decide)
        · exact ih h
      · exact ih h
    · rw [if_neg hc] at h
      exact ih h

theorem toLowerL_ne_nil {l : List Char} (h : l ≠ []) : toLowerL l ≠ [] := by
  intro h2
  exact h (List.map_eq_nil_iff.mp h2)

theorem addKey_mem {m : PMap} {k v : List Char} {kv : List Char × List Char}
    (h : kv ∈ addKey m k v) : kv ∈ m ∨ (kv = (k, v) ∧ k ≠ []) := by
  unfold addKey at h
  split at h
  · rcases List.mem_append.mp h with h2 | h2
    · exact Or.inl h2
    · rename_i hcond
      right
      exact ⟨List.mem_singleton.mp h2, hcond.1⟩
  · exact Or.inl h

theorem processRosterEntry_ne_nil {m : PMap} {e : List Char}
    (hm : ∀ kv ∈ m, kv.1 ≠ [] ∧ kv.2 ≠ []) :
    ∀ kv ∈ processRosterEntry m e, kv.1 ≠ [] ∧ kv.2 ≠ [] := by
  have hvar : ∀ (m2 : PMap) (dnp pid : List Char), pid ≠ [] →
      (∀ kv ∈ m2, kv.1 ≠ [] ∧ kv.2 ≠ []) →
      ∀ kv ∈ registerVariants m2 dnp pid, kv.1 ≠ [] ∧ kv.2 ≠ [] := by
    intro m2 dnp pid hpid hm2 kv hkv
    unfold registerVariants at hkv
    rcases addKey_mem hkv with h1 | ⟨heq, hk⟩
    · rcases addKey_mem h1 with h2 | ⟨heq, hk⟩
      · rcases addKey_mem h2 with h3 | ⟨heq, hk⟩
        · exact hm2 kv h3
        · subst heq
          exact ⟨hk, hpid⟩
      · subst heq
        exact ⟨hk, hpid⟩
    · subst heq
      exact ⟨hk, hpid⟩
  intro kv hkv
  unfold processRosterEntry at hkv
  split at hkv
  · rename_i seg hf
    exact hvar m _ _ (toLowerL_ne_nil (findIdentifier_ne_nil hf)) hm kv hkv
  · rcases addKey_mem hkv with h1 | ⟨heq, hk⟩
    · exact hm kv h1
    · subst heq
      exact ⟨hk, hk⟩

theorem buildMap_ne_nil (roster : List (List Char)) :
    ∀ kv ∈ buildMap roster, kv.1 ≠ [] ∧ kv.2 ≠ [] := by
  unfold buildMap
  have hgen : ∀ (entries : List (List Char)) (m : PMap),
      (∀ kv ∈ m, kv.1 ≠ [] ∧ kv.2 ≠ []) →
      ∀ kv ∈ entries.foldl processRosterEntry m, kv.1 ≠ [] ∧ kv.2 ≠ [] := by
    intro entries
    induction entries with
    | nil => intro m hm; exact hm
    | cons e es ih =>
      intro m hm
      rw [List.foldl_cons]
      exact ih _ (processRosterEntry_ne_nil hm)
  exact hgen roster [] (by intro kv hkv; cases hkv)

/-! ## Resolution results are map values -/

theorem lookupKey_mem {k : List Char} {m : PMap} {v : List Char}
    (h : lookupKey k m = some v) : (k, v) ∈ m := by
  induction m with
  | nil => cases h
  | cons p rest ih =>
    obtain ⟨k2, v2⟩ := p
    rw [lookupKey_cons] at h
    by_cases hk : k2 = k
    · rw [if_pos hk] at h
      injection h with h2
      subst hk
      subst h2
      exact List.mem_cons.mpr (Or.inl rfl)
    · rw [if_neg hk] at h
      exact List.mem_cons.mpr (Or.inr (ih h))

theorem substringFallback_mem {v2 : List Char} {id2 : List Char} :
    ∀ {m : PMap}, substringFallback v2 m = some id2 → ∃ k, (k, id2) ∈ m := by
  intro m
  induction m with
  | nil => intro h; cases h
  | cons p rest ih =>
    obtain ⟨k, v⟩ := p
    intro h
    rw [show substringFallback v2 ((k, v) :: rest) =
          (if isSubstringL k v2 || isSubstringL v2 k then some v
           else substringFallback v2 rest) from rfl] at h
    by_cases hc : (isSubstringL k v2 || isSubstringL v2 k) = true
    · rw [if_pos hc] at h
      injection h with h2
      subst h2
      exact ⟨k, List.mem_cons.mpr (Or.inl rfl)⟩
    · rw [if_neg hc] at h
      obtain ⟨k2, hk2⟩ := ih h
      exact ⟨k2, List.mem_cons.mpr (Or.inr hk2)⟩

theorem resolveIdentifier_mem {m : PMap} {s id2 : List Char}
    (h : resolveIdentifier m s = some id2) : ∃ k, (k, id2) ∈ m := by
  unfold resolveIdentifier at h
  cases h1 : lookupKey (clean_display_name s) m with
  | some v =>
    rw [h1] at h
    injection h with h2
    subst h2
    exact ⟨_, lookupKey_mem h1⟩
  | none =>
    rw [h1] at h
    cases h2 : lookupKey (firstTok (clean_display_name s)) m with
    | some v =>
      rw [h2] at h
      injection h with h3
      subst h3
      exact ⟨_, lookupKey_mem h2⟩
    | none =>
      rw [h2] at h
      cases h3 : lookupKey (toLowerL s) m with
      | some v =>
        rw [h3] at h
        injection h with h4
        subst h4
        exact ⟨_, lookupKey_mem h3⟩
      | none =>
        rw [h3] at h
        exact substringFallback_mem h

/-! ## C2: label assignment -/

/-- C2: For messages attributed against a participant map built from a
session roster, the label is "gpt" exactly when an identifier was resolved
and equals the caller-supplied self identifier case-insensitively; in every
other case (including no resolution) it is "human". -/
theorem label_assignment (roster : List (List Char)) (user sender : List Char) :
    (fromField user (resolveIdentifier (buildMap roster) sender) = "gpt" ↔
      ∃ id2, resolveIdentifier (buildMap roster) sender = some id2 ∧
        toLowerL user = toLowerL id2) ∧
    (fromField user (resolveIdentifier (buildMap roster) sender) = "gpt" ∨
     fromField user (resolveIdentifier (buildMap roster) sender) = "human") := by
  cases h : resolveIdentifier (buildMap roster) sender with
  | none =>
    refine ⟨⟨fun hg => ?_, ?_⟩, Or.inr rfl⟩
    · rw [show fromField user none = "human" from rfl] at hg
      exact absurd hg (by decide)
    · rintro ⟨id2, hid, _⟩
      cases hid
  | some id2 =>
    obtain ⟨k, hk⟩ := resolveIdentifier_mem h
    have hne : id2 ≠ [] := (buildMap_ne_nil roster _ hk).2
    rw [show fromField user (some id2) =
          (if id2 ≠ [] ∧ toLowerL user = toLowerL id2 then "gpt" else "human") from rfl]
    constructor
    · constructor
      · intro hg
        by_cases hc : id2 ≠ [] ∧ toLowerL user = toLowerL id2
        · exact ⟨id2, rfl, hc.2⟩
        · rw [if_neg hc] at hg
          exact absurd hg (by decide)
      · rintro ⟨id3, hid3, heq⟩
        injection hid3 with h3
        subst h3
        rw [if_pos ⟨hne, heq⟩]
    · by_cases hc : id2 ≠ [] ∧ toLowerL user = toLowerL id2
      · exact Or.inl (by rw [if_pos hc])
      · exact Or.inr (by rw [if_neg hc])

/-! ## C1: attribution order -/

theorem substringFallback_eq_find (v2 : List Char) : ∀ m : PMap,
    substringFallback v2 m =
      (m.find? (fun kv => isSubstringL kv.1 v2 || isSubstringL v2 kv.1)).map
        (fun kv => kv.2) := by
  intro m
  induction m with
  | nil => rfl
  | cons p rest ih =>
    obtain ⟨k, id2⟩ := p
    rw [show substringFallback v2 ((k, id2) :: rest) =
          (if isSubstringL k v2 || isSubstringL v2 k then some id2
           else substringFallback v2 rest) from rfl]
    by_cases hc : (isSubstringL k v2 || isSubstringL v2 k) = true
    · rw [if_pos hc]
      simp [List.find?_cons, hc]
    · rw [if_neg hc]
      have hc2 : (isSubstringL k v2 || isSubstringL v2 k) = false := Bool.eq_false_iff.mpr hc
      simp [List.find?_cons, hc2, ih]

/-- C1: On any non-empty participant map, attribution tries, in order and
stopping at the first success, the exact lookups of the heavily normalized
variant, its first token and the lightly normalized variant, and then the
insertion-order substring fallback — i.e. the implementation agrees with the
specification-side orElse chain. -/
theorem attribution_order (m : PMap) (sender : List Char) (_hm : m ≠ []) :
    resolveIdentifier m sender = resolveIdentifierSpec m sender := by
  unfold resolveIdentifier resolveIdentifierSpec
  cases h2 : lookupKey (clean_display_name sender) m with
  | some id2 => simp [Option.orElse]
  | none =>
    cases h3 : lookupKey (firstTok (clean_display_name sender)) m with
    | some id2 => simp [Option.orElse]
    | none =>
      cases h1 : lookupKey (toLowerL sender) m with
      | some id2 => simp [Option.orElse]
      | none => simp [Option.orElse, substringFallback_eq_find]

/-- Witness for C1 on a concrete one-entry map and sender. -/
theorem attribution_order_w :
    resolveIdentifier [("jane".toList, "jane.doe@example.com".toList)] "Jane D.".toList =
      resolveIdentifierSpec [("jane".toList, "jane.doe@example.com".toList)]
        "Jane D.".toList :=
  attribution_order _ _ (by decide)

/-! ## C9: empty heavily-normalized sender -/

theorem lookupKey_nil_none {mm : PMap} (h : ∀ kv ∈ mm, kv.1 ≠ []) :
    lookupKey [] mm = none := by
  induction mm with
  | nil => rfl
  | cons p rest ih =>
    obtain ⟨k2, v⟩ := p
    rw [lookupKey_cons, if_neg]
    · exact ih (fun kv hkv => h kv (List.mem_cons.mpr (Or.inr hkv)))
    · exact h (k2, v) (List.mem_cons.mpr (Or.inl rfl))

theorem isSubstringL_nil (l : List Char) : isSubstringL [] l = true := by
  cases l with
  | nil => rfl
  | cons c rest =>
    rw [show isSubstringL [] (c :: rest) =
          (([] : List Char).isPrefixOf (c :: rest) || isSubstringL [] rest) from rfl]
    simp [List.isPrefixOf]

/-- C9: When the heavily normalized sender text is empty, the lightly
normalized text misses the (non-empty) participant map, so the substring
fallback fires on the very first entry (the empty string is a substring of
every key): attribution returns the first-inserted identifier, and the
"no attribution found" default is unreachable. -/
theorem empty_sender_first_entry (roster : List (List Char)) (s : List Char)
    (hne : buildMap roster ≠ []) (hs : clean_display_name s = [])
    (hv1 : lookupKey (toLowerL s) (buildMap roster) = none) :
    resolveIdentifier (buildMap roster) s =
      (buildMap roster).head?.map (fun kv => kv.2) ∧
    resolveIdentifier (buildMap roster) s ≠ none := by
  have hkeys : ∀ kv ∈ buildMap roster, kv.1 ≠ [] :=
    fun kv hkv => (buildMap_ne_nil roster kv hkv).1
  have hstep : resolveIdentifier (buildMap roster) s =
      (buildMap roster).head?.map (fun kv => kv.2) := by
    unfold resolveIdentifier
    rw [hs, show firstTok ([] : List Char) = [] from rfl,
        lookupKey_nil_none hkeys, hv1]
    cases hmap : buildMap roster with
    | nil => exact absurd hmap hne
    | cons p rest =>
      obtain ⟨k0, v0⟩ := p
      rw [show substringFallback [] ((k0, v0) :: rest) =
            (if isSubstringL k0 [] || isSubstringL [] k0 then some v0
             else substringFallback [] rest) from rfl]
      rw [isSubstringL_nil k0]
      simp
  refine ⟨hstep, ?_⟩
  rw [hstep]
  cases hmap : buildMap roster with
  | nil => exact absurd hmap hne
  | cons p rest => simp

/-- Witness for C9 on a concrete roster and a sender text that normalizes to
the empty string. -/
theorem empty_sender_first_entry_w :
    (resolveIdentifier (buildMap ["Bob (bob@x.com)".toList]) "!!!".toList =
      (buildMap ["Bob (bob@x.com)".toList]).head?.map (fun kv => kv.2) ∧
    resolveIdentifier (buildMap ["Bob (bob@x.com)".toList]) "!!!".toList ≠ none) :=
  empty_sender_first_entry _ _ (by decide) (by decide) (by decide)

/-! ## C10: roster entries without an email-shaped identifier -/

/-- C10: A roster entry without a parenthesized email-shaped token registers
exactly one candidate key — the cleaned entry text mapping to itself — and
only when that key is non-empty and not already present; the lightly
normalized and first-token variants are not registered. -/
theorem roster_no_email_single_key (m : PMap) (entry : List Char)
    (h : findIdentifier entry = none) :
    processRosterEntry m entry =
      (if clean_display_name entry ≠ [] ∧
          lookupKey (clean_display_name entry) m = none
       then m ++ [(clean_display_name entry, clean_display_name entry)] else m) := by
  unfold processRosterEntry
  rw [h]
  rfl

/-- Witness for C10 on a concrete entry without an identifier. -/
theorem roster_no_email_single_key_w :
    processRosterEntry [] "Bob".toList =
      (if clean_display_name "Bob".toList ≠ [] ∧
          lookupKey (clean_display_name "Bob".toList) [] = none
       then [] ++ [(clean_display_name "Bob".toList, clean_display_name "Bob".toList)]
       else []) :=
  roster_no_email_single_key [] _ (by decide)

/-! ## C4: chunked serialization -/

theorem chunk40F_flatten {α : Type} :
    ∀ (fuel : Nat) (l : List α), (chunk40F fuel l).flatten = l := by
  intro fuel
  induction fuel with
  | zero =>
    intro l
    cases l with
    | nil => rfl
    | cons c cs => simp [chunk40F]
  | succ f ih =>
    intro l
    cases l with
    | nil => rfl
    | cons c cs =>
      rw [show chunk40F (f+1) (c :: cs) =
            ((c :: cs).take 40 :: chunk40F f ((c :: cs).drop 40)) from rfl]
      rw [List.flatten_cons, ih, List.take_append_drop]

theorem chunk40F_le40 {α : Type} :
    ∀ (fuel : Nat) (l : List α), l.length ≤ fuel →
      ∀ c ∈ chunk40F fuel l, c.length ≤ 40 := by
  intro fuel
  induction fuel with
  | zero =>
    intro l hlen c hc
    have : l = [] := List.length_eq_zero.mp (Nat.le_zero.mp hlen)
    subst this
    cases hc
  | succ f ih =>
    intro l hlen c hc
    cases l with
    | nil => cases hc
    | cons a as =>
      rw [show chunk40F (f+1) (a :: as) =
            ((a :: as).take 40 :: chunk40F f ((a :: as).drop 40)) from rfl] at hc
      rcases List.mem_cons.mp hc with h | h
      · subst h
        rw [List.length_take]
        omega
      · refine ih _ ?_ c h
        rw [List.length_drop]
        have := hlen
        simp only [List.length_cons] at this ⊢
        omega

/-- C4: Above 40 retained messages the output is the consecutive 40-chunks
(whose concatenation restores the sequence and each of which holds at most
40 messages) with the chunks of fewer than 3 messages dropped; at most 40
messages give one file when at least 3 and none otherwise; in particular 85
messages produce files of sizes 40, 40, 5 and 41 messages one file of size
40. -/
theorem chunked_serialization (l : List Conv) :
    (40 < l.length →
      outputFiles l = (chunk40 l).filter (fun c => decide (3 ≤ c.length)) ∧
      (chunk40 l).flatten = l ∧ ∀ c ∈ chunk40 l, c.length ≤ 40) ∧
    (l.length ≤ 40 → 3 ≤ l.length → outputFiles l = [l]) ∧
    (l.length < 3 → outputFiles l = []) ∧
    (outputFiles (List.replicate 85 (("human", []) : Conv))).map List.length =
      [40, 40, 5] ∧
    (outputFiles (List.replicate 41 (("human", []) : Conv))).map List.length = [40] := by
  refine ⟨?_, ?_, ?_, by decide, by decide⟩
  · intro hlen
    refine ⟨?_, chunk40F_flatten _ _, chunk40F_le40 _ _ (Nat.le_refl _)⟩
    unfold outputFiles
    rw [if_pos hlen]
  · intro h40 h3
    unfold outputFiles
    rw [if_neg (by omega), if_neg (by omega)]
  · intro h3
    unfold outputFiles
    rw [if_neg (by omega), if_pos h3]

/-- Witness for C4 applying the theorem at a concrete length-50 and a
concrete length-5 sequence. -/
theorem chunked_serialization_w :
    outputFiles (List.replicate 50 (("human", []) : Conv)) =
      (chunk40 (List.replicate 50 (("human", []) : Conv))).filter
        (fun c => decide (3 ≤ c.length)) ∧
    outputFiles (List.replicate 5 (("human", []) : Conv)) =
      [List.replicate 5 (("human", []) : Conv)] :=
  ⟨((chunked_serialization _).1 (by decide)).1,
   (chunked_serialization _).2.1 (by decide) (by decide)⟩

/-! ## Row/output dissection lemmas -/

theorem isPrefixOf_append_self (l t : List Char) : l.isPrefixOf (l ++ t) = true := by
  induction l with
  | nil => simp [List.isPrefixOf]
  | cons c cs ih => simp [List.isPrefixOf, ih]

theorem processRow_some {d : List Char} {m : PMap} {u : List Char} {r : Row} {msg : Msg}
    (h : processRow d m u r = some msg) :
    r.msgplus = false ∧ ∃ t sRaw c, r.time = some t ∧ r.sender = some sRaw ∧
      r.content = some c ∧ isNoise c = false ∧
      msg = ⟨d ++ (',' :: ' ' :: formatTime t),
             fromField u (resolveIdentifier m (pyStrip (rstripColon sRaw))), c⟩ := by
  obtain ⟨mp, t0, s0, c0⟩ := r
  cases mp with
  | true => simp [processRow] at h
  | false =>
    cases t0 with
    | none => simp [processRow] at h
    | some t =>
      cases s0 with
      | none => simp [processRow] at h
      | some sRaw =>
        cases c0 with
        | none => simp [processRow] at h
        | some c =>
          by_cases hn : isNoise c = true
          · simp [processRow, hn] at h
          · have hn2 : isNoise c = false := Bool.eq_false_iff.mpr hn
            simp only [processRow, hn2, Bool.false_eq_true, if_false] at h
            injection h with h2
            exact ⟨rfl, t, sRaw, c, rfl, rfl, rfl, hn2, h2.symm⟩

theorem mem_of_outputFiles {α : Type} {l f : List α} {x : α}
    (hf : f ∈ outputFiles l) (hx : x ∈ f) : x ∈ l := by
  unfold outputFiles at hf
  split at hf
  · have hf2 : f ∈ chunk40 l := List.mem_of_mem_filter hf
    have hxf : x ∈ (chunk40 l).flatten := List.mem_flatten.mpr ⟨f, hf2, hx⟩
    unfold chunk40 at hxf
    rwa [chunk40F_flatten] at hxf
  · split at hf
    · cases hf
    · have : f = l := List.mem_singleton.mp hf
      subst this
      exact hx

theorem mem_processDocument {user : List Char} {msg : Msg} :
    ∀ (sessions : List Session) (acc : List Msg),
      msg ∈ sessions.foldl (fun a s => a ++ processSession user s) acc →
      msg ∈ acc ∨ ∃ s ∈ sessions, msg ∈ processSession user s := by
  intro sessions
  induction sessions with
  | nil =>
    intro acc h
    exact Or.inl h
  | cons s ss ih =>
    intro acc h
    rw [List.foldl_cons] at h
    rcases ih _ h with h2 | ⟨s2, hs2, hm⟩
    · rcases List.mem_append.mp h2 with h3 | h3
      · exact Or.inl h3
      · exact Or.inr ⟨s, List.mem_cons.mpr (Or.inl rfl), h3⟩
    · exact Or.inr ⟨s2, List.mem_cons.mpr (Or.inr hs2), hm⟩

/-! ## C6: noise filter -/

/-- C6: A message whose content text trims and lower-cases to a string
starting with "http://", "https://" or "ping? [request]" is dropped before
attribution (its row yields no message), no value appearing in any output
file is such a string, and the concrete text "https://example.com" is such a
string. -/
theorem noise_filter_drops :
    (∀ (d : List Char) (m : PMap) (u : List Char) (r : Row) (c : List Char),
       r.content = some c → isNoise c = true → processRow d m u r = none) ∧
    (∀ (user : List Char) (sessions : List Session) (f : List Conv) (x : Conv),
       f ∈ documentFiles user sessions → x ∈ f → isNoise x.2 = false) ∧
    isNoise "https://example.com".toList = true := by
  refine ⟨?_, ?_, by decide⟩
  · intro d m u r c hc hn
    obtain ⟨mp, t0, s0, c0⟩ := r
    have hc0 : c0 = some c := hc
    subst hc0
    cases mp with
    | true => rfl
    | false =>
      cases t0 with
      | none => rfl
      | some t =>
        cases s0 with
        | none => rfl
        | some sRaw => simp [processRow, hn]
  · intro user sessions f x hf hx
    unfold documentFiles at hf
    have hxL : x ∈ (processDocument user sessions).map toConv :=
      mem_of_outputFiles hf hx
    rcases List.mem_map.mp hxL with ⟨msg, hmsg, hxeq⟩
    unfold processDocument at hmsg
    rcases mem_processDocument sessions [] hmsg with h0 | ⟨s, _, hs⟩
    · cases h0
    · unfold processSession at hs
      rcases List.mem_filterMap.mp hs with ⟨r, _, hr⟩
      obtain ⟨_, t, sRaw, c, _, _, _, hnoise, hmsgeq⟩ := processRow_some hr
      subst hxeq
      rw [hmsgeq]
      exact hnoise

/-- Witness for C6: a concrete link-only row yields no message. -/
theorem noise_filter_drops_w :
    processRow [] [] []
      ⟨false, some "12:34".toList, some "Bob".toList,
       some "https://example.com".toList⟩ = none :=
  noise_filter_drops.1 [] [] [] _ "https://example.com".toList rfl (by decide)

/-! ## C8: unparseable session dates -/

/-- C8: When the session header date text fails the date-pattern match or
fails date parsing, processing continues: the session date is the sentinel
"UNKNOWN_DATE", every extracted message's timestamp starts with it, and the
serialized (from, value) content of every row is the same as under any other
session date. -/
theorem unknown_date_handling (user : List Char) (s : Session) (h : List Char)
    (hh : s.header = some h)
    (hfail : findDatePat h = none ∨
      ∃ dp, findDatePat h = some dp ∧ parseDate (applyFrenchMonths dp) = none) :
    sessionDateOf s.header = ukDate ∧
    (∀ msg ∈ processSession user s, ukDate.isPrefixOf msg.timestamp = true) ∧
    (∀ (d1 d2 : List Char) (m : PMap) (u : List Char) (r : Row),
       (processRow d1 m u r).map toConv = (processRow d2 m u r).map toConv) := by
  have hdate : sessionDateOf s.header = ukDate := by
    rw [hh]
    unfold sessionDateOf
    show (match findDatePat h with
          | none => ukDate
          | some dp =>
            match parseDate (applyFrenchMonths dp) with
            | none => ukDate
            | some ymd => formatDate ymd) = ukDate
    rcases hfail with hf | ⟨dp, hf, hp⟩
    · rw [hf]
    · rw [hf]
      show (match parseDate (applyFrenchMonths dp) with
            | none => ukDate
            | some ymd => formatDate ymd) = ukDate
      rw [hp]
  refine ⟨hdate, ?_, ?_⟩
  · intro msg hmsg
    unfold processSession at hmsg
    rw [hdate] at hmsg
    rcases List.mem_filterMap.mp hmsg with ⟨r, _, hr⟩
    obtain ⟨_, t, sRaw, c, _, _, _, _, hmsgeq⟩ := processRow_some hr
    rw [hmsgeq]
    exact isPrefixOf_append_self _ _
  · intro d1 d2 m u r
    obtain ⟨mp, t0, s0, c0⟩ := r
    cases mp with
    | true => rfl
    | false =>
      cases t0 with
      | none => rfl
      | some t =>
        cases s0 with
        | none => rfl
        | some sRaw =>
          cases c0 with
          | none => rfl
          | some c =>
            by_cases hn : isNoise c = true
            · simp [processRow, hn]
            · have hn2 : isNoise c = false := Bool.eq_false_iff.mpr hn
              simp [processRow, hn2, toConv]

/-- Witness for C8 on a concrete session whose header has no date pattern. -/
theorem unknown_date_handling_w :
    sessionDateOf (Session.mk (some "hello".toList) []
        [⟨false, some "12:34".toList, some "Bob".toList, some "salut".toList⟩]).header =
      ukDate ∧
    (∀ msg ∈ processSession "u".toList
        (Session.mk (some "hello".toList) []
          [⟨false, some "12:34".toList, some "Bob".toList, some "salut".toList⟩]),
      ukDate.isPrefixOf msg.timestamp = true) ∧
    (∀ (d1 d2 : List Char) (m : PMap) (u : List Char) (r : Row),
       (processRow d1 m u r).map toConv = (processRow d2 m u r).map toConv) :=
  unknown_date_handling "u".toList _ "hello".toList rfl (Or.inl (by decide))

/-! ## C7: the Jane Doe example -/

/-- C7: With roster entry "Jane Doe (jane.doe@example.com)" and a sender cell
rendering "Jane D. :", attribution resolves to jane.doe@example.com, and it
does so through the first-token exact lookup (an exact-lookup path, before
the substring fallback). -/
theorem jane_attribution :
    resolveIdentifier (buildMap ["Jane Doe (jane.doe@example.com)".toList])
        (pyStrip (rstripColon "Jane D. :".toList)) =
      some "jane.doe@example.com".toList ∧
    lookupKey (firstTok (clean_display_name (pyStrip (rstripColon "Jane D. :".toList))))
        (buildMap ["Jane Doe (jane.doe@example.com)".toList]) =
      some "jane.doe@example.com".toList := by
  constructor
  · decide
  · decide
